import Mathlib

/-!
Verification of the `LamportClock` class from
`src/2024/parprog/distributed/lamport_clock/clock.hpp`.

The counter `time_` is a C++ `std::atomic<unsigned int>` (`LamportTime`),
modelled as a natural number reduced modulo `2 ^ 32` at every arithmetic
operation, exactly where the unsigned type wraps.  The sequential
(uncontended) semantics of each member function is embedded as a pure
state transformer on a one-field structure; `fetch_add` returns the value
held before the addition, as in C++, and `compare_exchange_strong` in an
uncontended run succeeds on its first iteration, so `receive_event`'s loop
body executes exactly once.
-/

namespace LamportClock2024

/-- Number of values of the 32-bit unsigned counter type `LamportTime`:
`UINT_MAX + 1`. -/
def modulus : Nat := 2 ^ 32

/-- The clock state: the single atomic member `time_` of `clock.hpp`. -/
structure Clock where
  time_ : Nat
deriving DecidableEq, Repr

/-- `LamportClock() : time_(0)`. -/
def init : Clock := ⟨0⟩

/-- `get_time`: `return time_.load();` -/
def get_time (c : Clock) : Nat := c.time_

/-- `std::atomic::fetch_add`: atomically replaces the current value with the
wrapped sum and returns the value held immediately before. -/
def fetch_add (c : Clock) (arg : Nat) : Nat × Clock :=
  (c.time_, ⟨(c.time_ + arg) % modulus⟩)

/-- `local_event`: `return time_.fetch_add(1);` -/
def local_event (c : Clock) : Nat × Clock := fetch_add c 1

/-- `send_event`: `return local_event();` -/
def send_event (c : Clock) : Nat × Clock := local_event c

/-- `receive_event(received_time)`, sequential (uncontended) semantics:
read `current_time = get_time()`; if `received_time < current_time`
return `time_.fetch_add(1)`; otherwise the `compare_exchange_strong`
succeeds at once, the counter becomes `received_time + 1` (in unsigned
arithmetic) and that value is returned. -/
def receive_event (c : Clock) (received_time : Nat) : Nat × Clock :=
  if received_time < get_time c then
    fetch_add c 1
  else
    ((received_time + 1) % modulus, ⟨(received_time + 1) % modulus⟩)

/-- One operation of the public sequential interface. -/
inductive Op where
  | get_time
  | local_event
  | send_event
  | receive_event (r : Nat)
deriving DecidableEq, Repr

/-- State transformer of one operation (result value discarded). -/
def step (c : Clock) : Op → Clock
  | .get_time => c
  | .local_event => (local_event c).2
  | .send_event => (send_event c).2
  | .receive_event r => (receive_event c r).2

/-- Running a sequence of operations from a state. -/
def run (c : Clock) : List Op → Clock
  | [] => c
  | op :: ops => run (step c op) ops

/-- The operation does not wrap the unsigned counter past `UINT_MAX`. -/
def noWrapB (c : Clock) : Op → Bool
  | .get_time => true
  | .local_event => c.time_ + 1 < modulus
  | .send_event => c.time_ + 1 < modulus
  | .receive_event r =>
    if r < c.time_ then c.time_ + 1 < modulus else r + 1 < modulus

/-- No operation of the sequence wraps the unsigned counter. -/
def traceOkB (c : Clock) : List Op → Bool
  | [] => true
  | op :: ops => noWrapB c op && traceOkB (step c op) ops

/-- `n` sequential `local_event()` calls; first component lists the returned
timestamps in call order, second is the final state. -/
def runLocal : Clock → Nat → List Nat × Clock
  | c, 0 => ([], c)
  | c, n + 1 =>
    let p := local_event c
    let rest := runLocal p.2 n
    (p.1 :: rest.1, rest.2)

lemma modulus_pos : 0 < modulus := by decide

lemma local_event_fst (c : Clock) : (local_event c).1 = c.time_ := rfl

lemma local_event_snd (c : Clock) :
    (local_event c).2.time_ = (c.time_ + 1) % modulus := rfl

lemma runLocal_succ (c : Clock) (n : Nat) :
    runLocal c (n + 1) =
      ((local_event c).1 :: (runLocal (local_event c).2 n).1,
       (runLocal (local_event c).2 n).2) := rfl

/-- Without wraparound, `n` `local_event()` calls from counter `t` return
`t, t + 1, …, t + n - 1` and leave the counter at `t + n`. -/
lemma runLocal_spec (n : Nat) :
    ∀ c : Clock, c.time_ + n ≤ modulus - 1 →
      (runLocal c n).1 = (List.range n).map (fun i => c.time_ + i) ∧
      (runLocal c n).2.time_ = c.time_ + n := by
  induction n with
  | zero => intro c _; simp [runLocal]
  | succ m ih =>
    intro c hc
    have hlt : c.time_ + 1 < modulus := by
      have := modulus_pos
      omega
    have hmod : (c.time_ + 1) % modulus = c.time_ + 1 := Nat.mod_eq_of_lt hlt
    have hstep : (local_event c).2 = ⟨c.time_ + 1⟩ := by
      simp [local_event, fetch_add, hmod]
    have hrec := ih ⟨c.time_ + 1⟩
      (by show c.time_ + 1 + m ≤ modulus - 1; omega)
    rw [runLocal_succ, hstep]
    constructor
    · rw [local_event_fst, hrec.1, List.range_succ_eq_map]
      simp only [List.map_cons, List.map_map, Nat.add_zero]
      refine congrArg (c.time_ :: ·) (List.map_congr_left ?_)
      intro i _
      show c.time_ + 1 + i = c.time_ + (i + 1)
      omega
    · rw [hrec.2]
      show c.time_ + 1 + m = c.time_ + (m + 1)
      omega

/-- Every non-wrapping operation keeps the counter in range and does not
decrease it. -/
lemma step_mono (c : Clock) (op : Op) (hv : c.time_ < modulus)
    (hw : noWrapB c op = true) :
    c.time_ ≤ (step c op).time_ ∧ (step c op).time_ < modulus := by
  cases op with
  | get_time => exact ⟨le_refl _, hv⟩
  | local_event =>
    simp only [noWrapB, decide_eq_true_eq] at hw
    show c.time_ ≤ (c.time_ + 1) % modulus ∧ (c.time_ + 1) % modulus < modulus
    rw [Nat.mod_eq_of_lt hw]
    omega
  | send_event =>
    simp only [noWrapB, decide_eq_true_eq] at hw
    show c.time_ ≤ (c.time_ + 1) % modulus ∧ (c.time_ + 1) % modulus < modulus
    rw [Nat.mod_eq_of_lt hw]
    omega
  | receive_event r =>
    simp only [noWrapB] at hw
    by_cases hr : r < c.time_
    · simp only [if_pos hr, decide_eq_true_eq] at hw
      have hb : r < get_time c := hr
      simp only [step, receive_event, if_pos hb, fetch_add]
      show c.time_ ≤ (c.time_ + 1) % modulus ∧
        (c.time_ + 1) % modulus < modulus
      rw [Nat.mod_eq_of_lt hw]
      omega
    · simp only [if_neg hr, decide_eq_true_eq] at hw
      have hb : ¬ r < get_time c := hr
      simp only [step, receive_event, if_neg hb]
      show c.time_ ≤ (r + 1) % modulus ∧ (r + 1) % modulus < modulus
      rw [Nat.mod_eq_of_lt hw]
      have hge : c.time_ ≤ r := Nat.le_of_not_lt hr
      omega

/-- Along any non-wrapping trace the counter never decreases. -/
lemma run_mono (ops : List Op) :
    ∀ c : Clock, c.time_ < modulus → traceOkB c ops = true →
      c.time_ ≤ (run c ops).time_ ∧ (run c ops).time_ < modulus := by
  induction ops with
  | nil => intro c hv _; exact ⟨le_refl _, hv⟩
  | cons op rest ih =>
    intro c hv htr
    simp only [traceOkB, Bool.and_eq_true] at htr
    have h1 := step_mono c op hv htr.1
    have h2 := ih (step c op) h1.2 htr.2
    exact ⟨le_trans h1.1 h2.1, h2.2⟩

/-- C1. Receive-merge rule: on a clock whose counter holds `t`, calling
`receive_event r` with `t ≤ r` (both valid `LamportTime` values) commits
the counter `r + 1` — computed in the 32-bit unsigned type, i.e.
`(r + 1) % 2 ^ 32` — and returns that same value. -/
theorem receive_event_merge (t r : Nat) (ht : t < modulus) (hr : r < modulus)
    (h : t ≤ r) :
    (receive_event ⟨t⟩ r).2.time_ = (r + 1) % modulus ∧
    (receive_event ⟨t⟩ r).1 = (r + 1) % modulus := by
  have hnot : ¬ r < get_time ⟨t⟩ := by
    simp [get_time]
    omega
  simp [receive_event, hnot]

/-- Witness for C1 at `t = 2`, `r = 5`: the counter and the returned value
are both `6`. -/
theorem receive_event_merge_witness :
    (receive_event ⟨2⟩ 5).2.time_ = (5 + 1) % modulus ∧
    (receive_event ⟨2⟩ 5).1 = (5 + 1) % modulus :=
  receive_event_merge 2 5 (by decide) (by decide) (by decide)

/-- C2. Receive-stale rule: on a clock whose counter holds `t`, calling
`receive_event r` with `r < t` performs an ordinary atomic increment,
committing the counter `t + 1` in unsigned arithmetic, i.e.
`(t + 1) % 2 ^ 32`. -/
theorem receive_event_stale (t r : Nat) (ht : t < modulus) (h : r < t) :
    (receive_event ⟨t⟩ r).2.time_ = (t + 1) % modulus := by
  have hlt : r < get_time ⟨t⟩ := h
  simp [receive_event, hlt, fetch_add]

/-- Witness for C2 at `t = 4`, `r = 2`: the counter becomes `5`. -/
theorem receive_event_stale_witness :
    (receive_event ⟨4⟩ 2).2.time_ = (4 + 1) % modulus :=
  receive_event_stale 4 2 (by decide) (by decide)

/-- C3 counterexample: on a clock whose counter holds `UINT_MAX`,
`local_event` returns `UINT_MAX` but the committed counter afterwards is
`0`, which is not one greater than the returned value. -/
theorem local_event_wrap_cex :
    ¬ ((local_event ⟨modulus - 1⟩).2.time_ =
        (local_event ⟨modulus - 1⟩).1 + 1) := by
  decide

/-- C3 (amended: the committed counter after `local_event` is one greater
than the returned value in unsigned arithmetic, `(returned + 1) % 2 ^ 32`;
and a single thread making `n` calls that stay below the wraparound point
observes returns `t, t + 1, …, t + n - 1`, strictly increasing by exactly
1 each time). -/
theorem local_event_contract (c : Clock) (n : Nat)
    (hv : c.time_ < modulus) (hn : c.time_ + n ≤ modulus - 1) :
    (local_event c).2.time_ = ((local_event c).1 + 1) % modulus ∧
    (runLocal c n).1 = (List.range n).map (fun i => c.time_ + i) := by
  refine ⟨?_, (runLocal_spec n c hn).1⟩
  rw [local_event_fst, local_event_snd]

/-- Witness for C3 at counter `7` with `3` calls: the returns are
`[7, 8, 9]` and the committed counter after one call is `(7 + 1) % 2^32`. -/
theorem local_event_contract_witness :
    (local_event ⟨7⟩).2.time_ = ((local_event ⟨7⟩).1 + 1) % modulus ∧
    (runLocal ⟨7⟩ 3).1 = (List.range 3).map (fun i => (7 : Nat) + i) :=
  local_event_contract ⟨7⟩ 3 (by decide) (by decide)

/-- C4. Monotonicity: along any sequence of `get_time` / `local_event` /
`send_event` / `receive_event` operations on one clock in which no
operation wraps past the maximum representable value, every later
`get_time()` reading is at least the earlier one (applied at the prefix
state `c`, this covers each successive pair of readings). -/
theorem get_time_monotone (c : Clock) (ops : List Op)
    (hv : c.time_ < modulus) (htr : traceOkB c ops = true) :
    get_time c ≤ get_time (run c ops) :=
  (run_mono ops c hv htr).1

/-- Witness for C4 on the trace
`local_event; receive_event 9; send_event; receive_event 3; get_time`
from the freshly constructed clock. -/
theorem get_time_monotone_witness :
    get_time init ≤ get_time (run init
      [Op.local_event, Op.receive_event 9, Op.send_event,
       Op.receive_event 3, Op.get_time]) :=
  get_time_monotone init
    [Op.local_event, Op.receive_event 9, Op.send_event,
     Op.receive_event 3, Op.get_time] (by decide) (by decide)

/-- C5. End-to-end scenario of `test1` in `test.cpp`: from the fresh clock,
`receive_event 3; receive_event 2; receive_event 1; receive_event 6`
yield `get_time()` readings `4, 5, 6, 7` after each call. -/
theorem scenario_test1 :
    get_time (run init [Op.receive_event 3]) = 4 ∧
    get_time (run init [Op.receive_event 3, Op.receive_event 2]) = 5 ∧
    get_time (run init
      [Op.receive_event 3, Op.receive_event 2, Op.receive_event 1]) = 6 ∧
    get_time (run init
      [Op.receive_event 3, Op.receive_event 2, Op.receive_event 1,
       Op.receive_event 6]) = 7 := by
  decide

/-- C6. Return-value convention split: the stale branch of `receive_event`
returns the pre-increment counter `t` — which differs from the value it
commits — while the merge branch returns exactly the newly committed
value `(r + 1) % 2 ^ 32`. -/
theorem receive_event_return_split (t r : Nat) (ht : t < modulus)
    (hr : r < modulus) :
    (r < t →
      (receive_event ⟨t⟩ r).1 = t ∧
      (receive_event ⟨t⟩ r).1 ≠ (receive_event ⟨t⟩ r).2.time_) ∧
    (t ≤ r →
      (receive_event ⟨t⟩ r).1 = (r + 1) % modulus ∧
      (receive_event ⟨t⟩ r).1 = (receive_event ⟨t⟩ r).2.time_) := by
  constructor
  · intro hlt
    have hb : r < get_time ⟨t⟩ := hlt
    have h1 : (receive_event ⟨t⟩ r).1 = t := by
      simp [receive_event, hb, fetch_add]
    have h2 : (receive_event ⟨t⟩ r).2.time_ = (t + 1) % modulus := by
      simp [receive_event, hb, fetch_add]
    refine ⟨h1, ?_⟩
    rw [h1, h2]
    by_cases hcase : t + 1 < modulus
    · rw [Nat.mod_eq_of_lt hcase]; omega
    · have hm : t + 1 = modulus := by omega
      rw [hm, Nat.mod_self]
      have := modulus_pos
      omega
  · intro hge
    have hb : ¬ r < get_time ⟨t⟩ := by
      simp [get_time]
      omega
    constructor
    · simp [receive_event, hb]
    · simp [receive_event, hb]

/-- Witness for C6 at `t = 4`, `r = 2`: the stale branch returns the
pre-increment value `4`, which differs from the committed counter `5`. -/
theorem receive_event_return_split_witness :
    (receive_event ⟨4⟩ 2).1 = 4 ∧
    (receive_event ⟨4⟩ 2).1 ≠ (receive_event ⟨4⟩ 2).2.time_ :=
  (receive_event_return_split 4 2 (by decide) (by decide)).1 (by decide)

/-- C7. Wraparound: on a clock whose counter holds the maximum
representable value `2 ^ 32 - 1`, one `local_event()` makes `get_time()`
report `0` (modular arithmetic, neither guarded nor rejected). -/
theorem local_event_wraparound :
    get_time (local_event ⟨modulus - 1⟩).2 = 0 := by
  decide

/-- With wraparound, `k` `local_event()` calls from counter `v` return
`(v + i) % 2 ^ 32` for `i = 0, …, k - 1` and leave the counter at
`(v + k) % 2 ^ 32`. -/
lemma runLocal_mod_spec (k : Nat) :
    ∀ v : Nat, v < modulus →
      (runLocal ⟨v⟩ k).1 = (List.range k).map (fun i => (v + i) % modulus) ∧
      (runLocal ⟨v⟩ k).2.time_ = (v + k) % modulus := by
  induction k with
  | zero => intro v hv; simp [runLocal, Nat.mod_eq_of_lt hv]
  | succ m ih =>
    intro v hv
    have hrec := ih ((v + 1) % modulus) (Nat.mod_lt _ modulus_pos)
    rw [runLocal_succ]
    have hstep : (local_event ⟨v⟩).2 = ⟨(v + 1) % modulus⟩ := rfl
    rw [hstep]
    constructor
    · rw [local_event_fst, hrec.1, List.range_succ_eq_map]
      simp only [List.map_cons, List.map_map, Nat.add_zero]
      rw [Nat.mod_eq_of_lt hv]
      refine congrArg (v :: ·) (List.map_congr_left ?_)
      intro i _
      show ((v + 1) % modulus + i) % modulus = (v + (i + 1)) % modulus
      rw [Nat.mod_add_mod]
      congr 1
      omega
    · rw [hrec.2]
      show ((v + 1) % modulus + m) % modulus = (v + (m + 1)) % modulus
      rw [Nat.mod_add_mod]
      congr 1
      omega

/-- C8 counterexample: from starting counter `V = UINT_MAX = 2 ^ 32 - 1`,
a single `local_event()` call (`K = 1`) leaves the final counter at `0`,
not at `V + K = 2 ^ 32`: the claimed final value fails under wraparound. -/
theorem local_event_unique_cex :
    ¬ ((runLocal ⟨modulus - 1⟩ 1).2.time_ = modulus - 1 + 1) := by
  decide

/-- C8 (amended: the claimed exact final value `v + k` holds only modulo
wraparound). Each of the `k` calls is one atomic `fetch_add`, so any
concurrent execution is an interleaving of `k` atomic increments, i.e.
some sequential order of `k` `local_event()` calls.  For every start
value `v` and every `k ≤ 2 ^ 32` (more threads than counter values would
force a repeat), the `k` returned timestamps are pairwise distinct and
the final counter equals `(v + k) % 2 ^ 32` — exactly `v + k` whenever no
wraparound occurs. -/
theorem local_event_unique_mod (v k : Nat) (hv : v < modulus)
    (hk : k ≤ modulus) :
    (runLocal ⟨v⟩ k).1.Nodup ∧
    (runLocal ⟨v⟩ k).2.time_ = (v + k) % modulus := by
  have hspec := runLocal_mod_spec k v hv
  refine ⟨?_, hspec.2⟩
  rw [hspec.1]
  refine List.Nodup.map_on ?_ (List.nodup_range k)
  intro a ha b hb hab
  rw [List.mem_range] at ha hb
  have h1 : Nat.ModEq modulus (v + a) (v + b) := hab
  have h2 : Nat.ModEq modulus a b := Nat.ModEq.add_left_cancel' v h1
  have ha2 : a < modulus := lt_of_lt_of_le ha hk
  have hb2 : b < modulus := lt_of_lt_of_le hb hk
  have h3 : a % modulus = b % modulus := h2
  rwa [Nat.mod_eq_of_lt ha2, Nat.mod_eq_of_lt hb2] at h3

/-- Witness for C8 with `v = 10`, `k = 4`: the four returns are pairwise
distinct and the final counter is `(10 + 4) % 2 ^ 32 = 14`. -/
theorem local_event_unique_mod_witness :
    (runLocal ⟨10⟩ 4).1.Nodup ∧
    (runLocal ⟨10⟩ 4).2.time_ = (10 + 4) % modulus :=
  local_event_unique_mod 10 4 (by decide) (by decide)

/-- C9. Wraparound inside the merge branch: with the received timestamp
equal to `UINT_MAX = 2 ^ 32 - 1` (which is `≥` any valid counter `t`),
`receive_event` commits the counter `0` and returns `0`; when `t` was
positive the counter thereby regresses below its previous value. -/
theorem receive_event_merge_wrap (t : Nat) (ht : t < modulus) :
    (receive_event ⟨t⟩ (modulus - 1)).2.time_ = 0 ∧
    (receive_event ⟨t⟩ (modulus - 1)).1 = 0 ∧
    (0 < t → (receive_event ⟨t⟩ (modulus - 1)).2.time_ < t) := by
  have := modulus_pos
  have hb : ¬ modulus - 1 < get_time ⟨t⟩ := by
    simp [get_time]
    omega
  have hsum : modulus - 1 + 1 = modulus := by omega
  simp [receive_event, if_neg hb, hsum, Nat.mod_self]

/-- Witness for C9 at `t = 5`: the committed counter and the return are
both `0`, strictly below the previous counter `5`. -/
theorem receive_event_merge_wrap_witness :
    (receive_event ⟨5⟩ (modulus - 1)).2.time_ = 0 ∧
    (receive_event ⟨5⟩ (modulus - 1)).1 = 0 ∧
    (receive_event ⟨5⟩ (modulus - 1)).2.time_ < 5 :=
  ⟨(receive_event_merge_wrap 5 (by decide)).1,
   (receive_event_merge_wrap 5 (by decide)).2.1,
   (receive_event_merge_wrap 5 (by decide)).2.2 (by decide)⟩

/-- C10. Pre-increment convention: `local_event` returns the counter value
`t` held before the call while `get_time()` afterwards reads
`(t + 1) % 2 ^ 32`; `send_event` is literally the same operation; and on
the freshly constructed clock the first event is assigned timestamp `0`,
equal to the initial `get_time()` reading. -/
theorem local_event_pre_increment (c : Clock) (hv : c.time_ < modulus) :
    (local_event c).1 = c.time_ ∧
    get_time (local_event c).2 = (c.time_ + 1) % modulus ∧
    send_event c = local_event c ∧
    (local_event init).1 = 0 ∧
    (local_event init).1 = get_time init :=
  ⟨rfl, rfl, rfl, rfl, rfl⟩

/-- Witness for C10 at counter `3`: the call returns `3` and `get_time`
then reads `4`. -/
theorem local_event_pre_increment_witness :
    (local_event ⟨3⟩).1 = 3 ∧
    get_time (local_event ⟨3⟩).2 = (3 + 1) % modulus ∧
    send_event ⟨3⟩ = local_event ⟨3⟩ ∧
    (local_event init).1 = 0 ∧
    (local_event init).1 = get_time init :=
  local_event_pre_increment ⟨3⟩ (by decide)

end LamportClock2024
